import Mathlib

/-
  Verification development for the streaming quantification engine of the
  KmerMagic repository (src/Sailfish/src/SalmonQuantify.cpp).

  The development shallowly embeds the parts of the source that the claims
  concern:

  * the greedy coverage chainer (TranscriptHitList::computeBestLoc_ and
    TranscriptHitList::computeBestChain), with its 32-bit unsigned coverage
    arithmetic modelled exactly (values in Nat, reduced mod 2^32 at every
    operation the C++ code performs on uint32_t);
  * the per-seed occurrence sampling loop and the spanning-seed resolution of
    collectHitsForRead;
  * the paired-end alignment emission of getHitsForFragment;
  * the per-read maxReadOccs filter of processReadsMEM;
  * the mini-batch EM worker processMiniBatch.

  Floating-point log-domain probability arithmetic (sailfish::math::LOG_0,
  logAdd, the values stored in SMEMAlignment::logProb and Transcript::mass)
  is modelled in the linear domain over the exact rationals: a log-domain
  value x is represented by its exponential exp(x) as a rational number, so
  LOG_0 becomes 0, LOG_1 becomes 1, log-domain addition of independent terms
  becomes multiplication, logAdd becomes addition, subtracting a log-sum
  becomes division, and comparisons r < exp(logProb) become r < prob.
  This transform is exact and order-preserving; claims about the log-domain
  formulas are stated and settled in this linear form.
-/

namespace SalmonQ

/-! ## Coverage chainer (TranscriptHitList)

    Source: SalmonQuantify.cpp, class TranscriptHitList.
    A KmerVote is a seed vote (votePos, readPos, voteLen); votePos is a
    signed 32-bit quantity in the source and is modelled as Int, readPos and
    voteLen are uint32_t and are modelled as Nat. -/

structure KmerVote where
  votePos : Int
  readPos : Nat
  voteLen : Nat
deriving DecidableEq

/-- The strict-weak-order comparator passed to std::sort in computeBestChain:
    votes are ordered by votePos, ties broken by readPos.  We use its
    reflexive closure, a total preorder, for insertion sort. -/
def voteLe (a b : KmerVote) : Prop :=
  a.votePos < b.votePos ∨ (a.votePos = b.votePos ∧ a.readPos ≤ b.readPos)

instance : DecidableRel voteLe := fun a b => by
  unfold voteLe; infer_instance

instance : IsTotal KmerVote voteLe := by
  constructor
  intro a b
  unfold voteLe
  omega

instance : IsTrans KmerVote voteLe := by
  constructor
  intro a b c hab hbc
  unfold voteLe at hab hbc ⊢
  omega

/-- Sorting of the vote vectors done at the top of computeBestChain.
    std::sort with the (votePos, readPos) comparator produces a list sorted
    by that key; insertion sort is one such (deterministic) refinement. -/
def sortVotes (l : List KmerVote) : List KmerVote := l.insertionSort voteLe

/-- 2^32, the modulus of the uint32_t arithmetic used for coverage. -/
def U32 : Nat := 4294967296

/-- Conversion of a signed integer expression to the uint32_t value the C++
    usual arithmetic conversions produce for it. -/
def u32ofInt (z : Int) : Nat := (z % (U32 : Int)).toNat

/-- The end offset votePos + readPos + voteLen of a vote, as an unbounded
    integer.  In computeBestLoc_ this quantity is evaluated in uint32_t
    arithmetic; u32ofInt (endOff v) is the value the code computes. -/
def endOff (v : KmerVote) : Int := v.votePos + v.readPos + v.voteLen

/-- The cluster-accumulation state of the computeBestLoc_ loop: the current
    cluster key currClust, and the VoteInfo entry hitMap[currClust]
    (coverage, rightmostBase).  Since currClust only moves forward, the map
    entry for any other key is never touched again, so carrying only the
    current entry is faithful.  rightmostBase is declared int32_t in the
    source but is only ever compared/subtracted after conversion back to
    uint32_t, so we store that uint32_t value. -/
structure CovSt where
  clust : Int
  cov : Nat
  rb : Nat
deriving DecidableEq

/-- One iteration of the coverage-accumulation part of the computeBestLoc_
    loop body (cluster advance, hitMap entry update), for a vote with
    votePos ≥ currClust.  Mirrors:
      if (votePos - currClust > 10) currClust = votePos;
      auto and hmEntry = hitMap[currClust];
      hmEntry.coverage += std::min(voteLen,
                (votePos + readPos + voteLen) - hmEntry.rightmostBase);
      hmEntry.rightmostBase = votePos + readPos + voteLen;
    with all uint32_t operations taken mod 2^32. -/
def covStep (c : CovSt) (v : KmerVote) : CovSt :=
  let adv := decide (v.votePos - c.clust > 10)
  let clust := if adv then v.votePos else c.clust
  let cov0 := if adv then 0 else c.cov
  let rb0 := if adv then 0 else c.rb
  let e := u32ofInt (endOff v)
  let contrib := min v.voteLen ((e + U32 - rb0) % U32)
  ⟨clust, (cov0 + contrib) % U32, e⟩

/-- Iterated covStep over a vote list. -/
def covRun (c : CovSt) : List KmerVote → CovSt
  | [] => c
  | v :: vs => covRun (covStep c v) vs

/-- The largest coverage value attained by hitMap[currClust] immediately
    after any vote of the list is processed, starting from state c.
    This is the quantity against which maxClusterCount is updated. -/
def covPeakAux (c : CovSt) : List KmerVote → Nat
  | [] => 0
  | v :: vs => max (covStep c v).cov (covPeakAux (covStep c v) vs)

/-- Best (peak) cluster coverage of a vote list, run the way
    computeBestLoc_ runs it: currClust initialised to the first votePos,
    fresh hitMap.  Zero for the empty list (computeBestLoc_ returns
    immediately). -/
def bestCov : List KmerVote → Nat
  | [] => 0
  | v :: vs => covPeakAux ⟨v.votePos, 0, 0⟩ (v :: vs)

/-- The maximum-tracking state shared by the two computeBestLoc_ calls of
    computeBestChain: maxClusterCount, maxClusterPos, maxClusterScore. -/
structure MaxSt where
  maxCount : Nat
  maxPos : Int
  maxScore : ℚ
deriving DecidableEq

/-- Full loop state of computeBestLoc_. -/
structure ChainSt where
  cs : CovSt
  mx : MaxSt
  upd : Bool
deriving DecidableEq

/-- One full iteration of the computeBestLoc_ loop: the votePos < currClust
    branch calls std::exit(1), modelled as none; otherwise the coverage is
    accumulated (covStep) and the running maximum is updated when the
    current cluster coverage strictly exceeds maxClusterCount.  The score
    written on an update is coverage / readLen. -/
def chainStep (readLen : Nat) (s : ChainSt) (v : KmerVote) : Option ChainSt :=
  if v.votePos ≥ s.cs.clust then
    let c := covStep s.cs v
    if c.cov > s.mx.maxCount then
      some ⟨c, ⟨c.cov, c.clust, (c.cov : ℚ) / (readLen : ℚ)⟩, true⟩
    else
      some ⟨c, s.mx, s.upd⟩
  else none

/-- The computeBestLoc_ loop over a (sorted) vote list. -/
def processVotes (readLen : Nat) (s : ChainSt) : List KmerVote → Option ChainSt
  | [] => some s
  | v :: vs =>
    match chainStep readLen s v with
    | none => none
    | some s1 => processVotes readLen s1 vs

/-- computeBestLoc_ : early-returns false on an empty vote vector, otherwise
    initialises currClust to the first votePos and a fresh hitMap, runs the
    loop, and reports whether the shared maximum was updated. -/
def computeBestLoc (sVotes : List KmerVote) (readLen : Nat) (m : MaxSt) :
    Option (MaxSt × Bool) :=
  match sVotes with
  | [] => some (m, false)
  | v :: vs =>
    (processVotes readLen ⟨⟨v.votePos, 0, 0⟩, m, false⟩ (v :: vs)).map
      (fun s => (s.mx, s.upd))

/-- Result record of computeBestChain: bestHitPos, bestHitCount,
    bestHitScore, isForward_. -/
structure ChainOut where
  bestHitPos : Int
  bestHitCount : Nat
  bestHitScore : ℚ
  isForward : Bool
deriving DecidableEq

/-- computeBestChain with the none (aborted) case still explicit: sort both
    vote vectors, run computeBestLoc_ on the forward votes (return value
    discarded), then on the RC votes; isForward_ = not revIsBest. -/
def computeBestChainO (votes rcVotes : List KmerVote) (readLen : Nat) :
    Option ChainOut :=
  match computeBestLoc (sortVotes votes) readLen ⟨0, 0, 0⟩ with
  | none => none
  | some (m1, _) =>
    match computeBestLoc (sortVotes rcVotes) readLen m1 with
    | none => none
    | some (m2, revIsBest) =>
      some ⟨m2.maxPos, m2.maxCount, m2.maxScore, !revIsBest⟩

/-- TranscriptHitList::computeBestChain.  The abort branch of the loop is
    unreachable after sorting (proved below), so the default is never
    used; isForward_ defaults to true as in the class definition. -/
def computeBestChain (votes rcVotes : List KmerVote) (readLen : Nat) :
    ChainOut :=
  (computeBestChainO votes rcVotes readLen).getD ⟨0, 0, 0, true⟩

/-- Total vote length of a list of votes. -/
def sumVL (l : List KmerVote) : Nat := (l.map KmerVote.voteLen).sum

/-! ### Basic facts about the chainer loop -/

theorem covStep_clust_le (c : CovSt) (v : KmerVote) (h : c.clust ≤ v.votePos) :
    (covStep c v).clust ≤ v.votePos := by
  simp only [covStep]
  split <;> omega

theorem covStep_cov_le (c : CovSt) (v : KmerVote) :
    (covStep c v).cov ≤ c.cov + v.voteLen := by
  simp only [covStep]
  refine le_trans (Nat.mod_le _ _) ?_
  have h1 : (if decide (v.votePos - c.clust > 10) = true then 0 else c.cov) ≤ c.cov := by
    split <;> omega
  have h2 : min v.voteLen ((u32ofInt (endOff v) + U32 -
      (if decide (v.votePos - c.clust > 10) = true then 0 else c.rb)) % U32) ≤ v.voteLen :=
    Nat.min_le_left _ _
  omega

theorem covPeakAux_le (votes : List KmerVote) :
    ∀ c : CovSt, covPeakAux c votes ≤ c.cov + sumVL votes := by
  induction votes with
  | nil => intro c; simp [covPeakAux, sumVL]
  | cons v vs ih =>
    intro c
    have h1 := covStep_cov_le c v
    have h2 := ih (covStep c v)
    simp only [covPeakAux, sumVL, List.map_cons, List.sum_cons] at *
    omega

theorem bestCov_le_sumVL (votes : List KmerVote) : bestCov votes ≤ sumVL votes := by
  cases votes with
  | nil => simp [bestCov, sumVL]
  | cons v vs =>
    have h := covPeakAux_le (v :: vs) ⟨v.votePos, 0, 0⟩
    simpa [bestCov] using h

theorem sumVL_sortVotes (l : List KmerVote) : sumVL (sortVotes l) = sumVL l := by
  unfold sumVL sortVotes
  exact List.Perm.sum_eq (List.Perm.map _ (List.perm_insertionSort voteLe l))

theorem sorted_chain_votePos {l : List KmerVote} (h : l.Sorted voteLe) :
    l.Chain' (fun a b => a.votePos ≤ b.votePos) := by
  refine List.Chain'.imp ?_ (List.Pairwise.chain' h)
  intro a b hab
  unfold voteLe at hab
  omega

/-- Characterization of the computeBestLoc_ loop on a votePos-nondecreasing
    vote list: it never aborts, the cluster state is the covStep fold, the
    final maxClusterCount is the old one joined with the peak cluster
    coverage, the update flag records whether the peak strictly exceeded the
    incoming maximum, and maxClusterScore stays maxClusterCount / readLen. -/
theorem processVotes_eq (readLen : Nat) :
    ∀ (votes : List KmerVote) (c : CovSt) (m : MaxSt) (u : Bool),
      (∀ w ∈ votes.head?, c.clust ≤ w.votePos) →
      votes.Chain' (fun a b => a.votePos ≤ b.votePos) →
      ∃ t : ChainSt,
        processVotes readLen ⟨c, m, u⟩ votes = some t ∧
        t.cs = covRun c votes ∧
        t.mx.maxCount = max m.maxCount (covPeakAux c votes) ∧
        t.upd = (u || decide (covPeakAux c votes > m.maxCount)) ∧
        (m.maxScore = (m.maxCount : ℚ) / (readLen : ℚ) →
          t.mx.maxScore = (t.mx.maxCount : ℚ) / (readLen : ℚ)) := by
  intro votes
  induction votes with
  | nil =>
    intro c m u _ _
    refine ⟨⟨c, m, u⟩, rfl, rfl, by simp [covPeakAux], by simp [covPeakAux], fun h => h⟩
  | cons v vs ih =>
    intro c m u hhd hch
    have hcl : c.clust ≤ v.votePos := hhd v rfl
    have hhd2 : ∀ w ∈ vs.head?, (covStep c v).clust ≤ w.votePos := by
      intro w hw
      exact le_trans (covStep_clust_le c v hcl) ((List.chain'_cons'.mp hch).1 w hw)
    have hch2 : vs.Chain' (fun a b => a.votePos ≤ b.votePos) :=
      (List.chain'_cons'.mp hch).2
    by_cases hgt : (covStep c v).cov > m.maxCount
    · have hstep : chainStep readLen ⟨c, m, u⟩ v =
          some ⟨covStep c v, ⟨(covStep c v).cov, (covStep c v).clust,
            ((covStep c v).cov : ℚ) / (readLen : ℚ)⟩, true⟩ := by
        unfold chainStep
        rw [if_pos hcl, if_pos hgt]
      obtain ⟨t, hp, hcs, hmc, hupd, hsc⟩ :=
        ih (covStep c v) ⟨(covStep c v).cov, (covStep c v).clust,
          ((covStep c v).cov : ℚ) / (readLen : ℚ)⟩ true hhd2 hch2
      refine ⟨t, ?_, ?_, ?_, ?_, ?_⟩
      · simp only [processVotes, hstep]
        exact hp
      · exact hcs
      · rw [hmc]
        simp only [covPeakAux]
        omega
      · rw [hupd]
        have h1 : covPeakAux c (v :: vs) > m.maxCount :=
          lt_of_lt_of_le hgt (le_max_left _ _)
        simp [h1]
      · intro _
        exact hsc rfl
    · have hstep : chainStep readLen ⟨c, m, u⟩ v = some ⟨covStep c v, m, u⟩ := by
        unfold chainStep
        rw [if_pos hcl, if_neg hgt]
      obtain ⟨t, hp, hcs, hmc, hupd, hsc⟩ := ih (covStep c v) m u hhd2 hch2
      refine ⟨t, ?_, ?_, ?_, ?_, ?_⟩
      · simp only [processVotes, hstep]
        exact hp
      · exact hcs
      · rw [hmc]
        simp only [covPeakAux]
        omega
      · rw [hupd]
        have h1 : (covPeakAux (covStep c v) vs > m.maxCount) ↔
            (covPeakAux c (v :: vs) > m.maxCount) := by
          simp only [covPeakAux]
          omega
        rw [decide_eq_decide.mpr h1]
      · exact hsc

/-- computeBestLoc_ on a sorted vote list: the outcome in terms of bestCov. -/
theorem computeBestLoc_eq (votes : List KmerVote) (readLen : Nat) (m : MaxSt)
    (h : votes.Sorted voteLe) :
    ∃ m2 : MaxSt,
      computeBestLoc votes readLen m =
        some (m2, decide (bestCov votes > m.maxCount)) ∧
      m2.maxCount = max m.maxCount (bestCov votes) ∧
      (m.maxScore = (m.maxCount : ℚ) / (readLen : ℚ) →
        m2.maxScore = (m2.maxCount : ℚ) / (readLen : ℚ)) := by
  cases votes with
  | nil =>
    refine ⟨m, ?_, by simp [bestCov], fun h => h⟩
    simp [computeBestLoc, bestCov]
  | cons v vs =>
    have hch : (v :: vs).Chain' (fun a b => a.votePos ≤ b.votePos) :=
      sorted_chain_votePos h
    have hhd : ∀ w ∈ (v :: vs).head?, (⟨v.votePos, 0, 0⟩ : CovSt).clust ≤ w.votePos := by
      intro w hw
      simp only [List.head?_cons, Option.mem_def, Option.some.injEq] at hw
      subst hw
      exact le_refl _
    obtain ⟨t, hp, _, hmc, hupd, hsc⟩ :=
      processVotes_eq readLen (v :: vs) ⟨v.votePos, 0, 0⟩ m false hhd hch
    refine ⟨t.mx, ?_, ?_, ?_⟩
    · simp only [computeBestLoc, hp, Option.map_some']
      rw [hupd]
      simp [bestCov]
    · rw [hmc]; rfl
    · exact hsc

/-- computeBestChain in terms of the peak cluster coverages of the two
    sorted vote lists: the final count is their maximum, the orientation is
    forward unless the RC peak strictly exceeds the forward peak, and the
    score is the final count divided by the read length. -/
theorem computeBestChain_spec (votes rcVotes : List KmerVote) (readLen : Nat) :
    (computeBestChain votes rcVotes readLen).bestHitCount
        = max (bestCov (sortVotes votes)) (bestCov (sortVotes rcVotes)) ∧
    (computeBestChain votes rcVotes readLen).isForward
        = decide (bestCov (sortVotes rcVotes) ≤ bestCov (sortVotes votes)) ∧
    (computeBestChain votes rcVotes readLen).bestHitScore
        = ((max (bestCov (sortVotes votes)) (bestCov (sortVotes rcVotes)) : ℕ) : ℚ)
            / (readLen : ℚ) := by
  obtain ⟨m1, hp1, hmc1, hsc1⟩ :=
    computeBestLoc_eq (sortVotes votes) readLen ⟨0, 0, 0⟩
      (List.sorted_insertionSort voteLe votes)
  obtain ⟨m2, hp2, hmc2, hsc2⟩ :=
    computeBestLoc_eq (sortVotes rcVotes) readLen m1
      (List.sorted_insertionSort voteLe rcVotes)
  have hm1c : m1.maxCount = bestCov (sortVotes votes) := by
    rw [hmc1]; simp
  have hm1s : m1.maxScore = (m1.maxCount : ℚ) / (readLen : ℚ) := by
    apply hsc1
    simp
  have hm2s : m2.maxScore = (m2.maxCount : ℚ) / (readLen : ℚ) := hsc2 hm1s
  have hout : computeBestChain votes rcVotes readLen =
      ⟨m2.maxPos, m2.maxCount,  m2.maxScore,
        !decide (bestCov (sortVotes rcVotes) > m1.maxCount)⟩ := by
    unfold computeBestChain computeBestChainO
    simp only [hp1, hp2]
    rfl
  rw [hout]
  refine ⟨?_, ?_, ?_⟩
  · rw [hmc2, hm1c]
  · show (!decide (bestCov (sortVotes rcVotes) > m1.maxCount)) = _
    rw [hm1c, ← decide_not, decide_eq_decide]
    omega
  · rw [hm2s, hmc2, hm1c]

/-- Claim C10: after computeBestChain, the hit is reported as
    reverse-complement (isForward() == false) exactly when the best (peak)
    reverse-complement cluster coverage strictly exceeds the best forward
    cluster coverage; on ties (including both zero) the hit is reported as
    forward.  Coverage counts and cluster scores differ by the fixed
    positive factor 1/readLen, so strict comparison of counts coincides with
    strict comparison of scores. -/
theorem C10_orientation_tie_forward (votes rcVotes : List KmerVote) (readLen : Nat) :
    (computeBestChain votes rcVotes readLen).isForward = false ↔
      bestCov (sortVotes votes) < bestCov (sortVotes rcVotes) := by
  have h := (computeBestChain_spec votes rcVotes readLen).2.1
  rw [h]
  simp [Nat.not_le]

/-- Claim C9 as stated is false: two overlapping forward votes, each with
    voteLen ≤ readLen and readPos + voteLen ≤ readLen, drive the greedy
    cluster coverage to 198 on a read of length 100, so bestHitScore is
    1.98, outside [0, 1].  (The second, contained vote ends before the
    rightmost base of the first; the uint32_t subtraction wraps and the
    vote contributes its full voteLen.) -/
theorem C9_counterexample :
    ¬ ((computeBestChain [⟨0, 0, 100⟩, ⟨0, 1, 98⟩] [] 100).bestHitScore ≤ 1) := by
  have h := (computeBestChain_spec [⟨0, 0, 100⟩, ⟨0, 1, 98⟩] [] 100).2.2
  have hb : bestCov (sortVotes [⟨0, 0, 100⟩, ⟨0, 1, 98⟩]) = 198 := by decide
  have hb2 : bestCov (sortVotes ([] : List KmerVote)) = 0 := by decide
  rw [h, hb, hb2]
  norm_num

/-- Claim C9, amended: the chainer score is always nonnegative, and is
    bounded above by (total forward voteLen) ⊔ (total RC voteLen) divided by
    the read length — hence it lies in [0, 1] whenever that total vote
    length does not exceed the read length, but may exceed 1 in general. -/
theorem C9_amended_score_bounds (votes rcVotes : List KmerVote) (readLen : Nat) :
    0 ≤ (computeBestChain votes rcVotes readLen).bestHitScore ∧
    (computeBestChain votes rcVotes readLen).bestHitScore
      ≤ ((max (sumVL votes) (sumVL rcVotes) : ℕ) : ℚ) / (readLen : ℚ) ∧
    (max (sumVL votes) (sumVL rcVotes) ≤ readLen →
      (computeBestChain votes rcVotes readLen).bestHitScore ≤ 1) := by
  have h := (computeBestChain_spec votes rcVotes readLen).2.2
  have hF : bestCov (sortVotes votes) ≤ sumVL votes := by
    calc bestCov (sortVotes votes) ≤ sumVL (sortVotes votes) :=
          bestCov_le_sumVL _
    _ = sumVL votes := sumVL_sortVotes _
  have hR : bestCov (sortVotes rcVotes) ≤ sumVL rcVotes := by
    calc bestCov (sortVotes rcVotes) ≤ sumVL (sortVotes rcVotes) :=
          bestCov_le_sumVL _
    _ = sumVL rcVotes := sumVL_sortVotes _
  have hle : max (bestCov (sortVotes votes)) (bestCov (sortVotes rcVotes))
      ≤ max (sumVL votes) (sumVL rcVotes) := by omega
  rw [h]
  refine ⟨?_, ?_, ?_⟩
  · positivity
  · rcases Nat.eq_zero_or_pos readLen with h0 | h0
    · simp [h0]
    · exact (div_le_div_iff_of_pos_right (by exact_mod_cast h0)).mpr
        (by exact_mod_cast hle)
  · intro hlen
    rcases Nat.eq_zero_or_pos readLen with h0 | h0
    · subst h0
      norm_num
    · rw [div_le_one (by exact_mod_cast h0)]
      have : max (bestCov (sortVotes votes)) (bestCov (sortVotes rcVotes)) ≤ readLen := by
        omega
      exact_mod_cast this

/-- Witness for the hypothesis of the final conjunct of the amended C9. -/
theorem C9_amended_score_bounds_witness :
    0 ≤ (computeBestChain [⟨0, 0, 20⟩] [] 50).bestHitScore ∧
    (computeBestChain [⟨0, 0, 20⟩] [] 50).bestHitScore ≤ 1 := by
  have h := C9_amended_score_bounds [⟨0, 0, 20⟩] [] 50
  exact ⟨h.1, h.2.2 (by decide)⟩

/-- Claim C8 as stated is false: in the fixed vote list
    [(0,0,100), (0,1,98)] on a read of length 100, increasing the voteLen of
    the second vote by 1 (to 99) makes its end offset hit the rightmost base
    of the first vote exactly, so its contribution collapses from 98
    (wrapped uint32_t subtraction) to min(99, 0) = 0 and bestHitScore drops
    from 1.98 to 1.0. -/
theorem C8_counterexample :
    (computeBestChain [⟨0, 0, 100⟩, ⟨0, 1, 99⟩] [] 100).bestHitScore
      < (computeBestChain [⟨0, 0, 100⟩, ⟨0, 1, 98⟩] [] 100).bestHitScore := by
  have h1 := (computeBestChain_spec [⟨0, 0, 100⟩, ⟨0, 1, 98⟩] [] 100).2.2
  have h2 := (computeBestChain_spec [⟨0, 0, 100⟩, ⟨0, 1, 99⟩] [] 100).2.2
  have hb1 : bestCov (sortVotes [⟨0, 0, 100⟩, ⟨0, 1, 98⟩]) = 198 := by decide
  have hb2 : bestCov (sortVotes [⟨0, 0, 100⟩, ⟨0, 1, 99⟩]) = 100 := by decide
  have hb0 : bestCov (sortVotes ([] : List KmerVote)) = 0 := by decide
  rw [h1, h2, hb1, hb2, hb0]
  norm_num

/-! ### Amended C8: monotonicity of bestHitScore in a single voteLen

    The counterexample above exploits a vote whose end offset lies strictly
    below the previous rightmost base, where the uint32_t subtraction wraps.
    When end offsets are nondecreasing along the sorted vote list (and the
    32-bit counters cannot overflow), growing one voteLen is monotone. -/

/-- The vote v with its voteLen increased by d; votePos and readPos (the
    sort keys) are unchanged. -/
def growVote (v : KmerVote) (d : Nat) : KmerVote :=
  ⟨v.votePos, v.readPos, v.voteLen + d⟩

theorem voteLe_grow_left (v : KmerVote) (d : Nat) (x : KmerVote) :
    voteLe (growVote v d) x ↔ voteLe v x := by
  simp [voteLe, growVote]

theorem voteLe_grow_right (v : KmerVote) (d : Nat) (x : KmerVote) :
    voteLe x (growVote v d) ↔ voteLe x v := by
  simp [voteLe, growVote]

theorem sorted_grow {pre post : List KmerVote} {v : KmerVote} {d : Nat}
    (h : (pre ++ v :: post).Sorted voteLe) :
    (pre ++ growVote v d :: post).Sorted voteLe := by
  unfold List.Sorted at h ⊢
  rw [List.pairwise_append] at h ⊢
  obtain ⟨h1, h2, h3⟩ := h
  rw [List.pairwise_cons] at h2
  refine ⟨h1, ?_, ?_⟩
  · rw [List.pairwise_cons]
    refine ⟨?_, h2.2⟩
    intro y hy
    rw [voteLe_grow_left]
    exact h2.1 y hy
  · intro x hx y hy
    rcases List.mem_cons.mp hy with hy | hy
    · subst hy
      rw [voteLe_grow_right]
      exact h3 x hx v (List.mem_cons_self _ _)
    · exact h3 x hx y (List.mem_cons_of_mem _ hy)

theorem endOff_grow (v : KmerVote) (d : Nat) :
    endOff (growVote v d) = endOff v + d := by
  simp only [endOff, growVote]
  push_cast
  ring

/-- Stepping the two runs through v and growVote v d from a common state:
    provided the end offset of v is at least the current rightmost base (no
    uint32_t wrap at v) and no counter overflows, the grown run ends with
    rightmost base and cluster coverage exactly d larger. -/
theorem covStep_grow (d : Nat) (c : CovSt) (v : KmerVote)
    (hrb : c.rb = 0 ∨ (c.rb : Int) ≤ endOff v)
    (h0 : 0 ≤ endOff v) (h1 : endOff v + d < (U32 : Int))
    (hcov : c.cov + v.voteLen + d < U32) :
    (covStep c (growVote v d)).clust = (covStep c v).clust ∧
    (covStep c (growVote v d)).rb = (covStep c v).rb + d ∧
    (covStep c (growVote v d)).cov = (covStep c v).cov + d ∧
    (covStep c v).rb = u32ofInt (endOff v) ∧
    (covStep c v).cov ≤ (if v.votePos - c.clust > 10 then 0 else c.cov) + v.voteLen := by
  simp only [covStep, growVote, endOff, u32ofInt, U32, decide_eq_true_eq] at *
  refine ⟨?_, ?_, ?_, ?_, ?_⟩
  all_goals try trivial
  all_goals try split_ifs with h
  all_goals omega

/-- Stepping the two runs through a common vote w, from states whose
    rightmost bases differ by exactly d, when the end offset of w is at
    least the smaller rightmost base: afterwards the rightmost bases agree
    and the grown run has at least as much cluster coverage. -/
theorem covStep_post_first (d : Nat) (c1 c2 : CovSt) (w : KmerVote)
    (hclust : c2.clust = c1.clust)
    (hrb : c2.rb = c1.rb + d)
    (hcov : c2.cov = c1.cov + d)
    (hrble : (c1.rb : Int) ≤ endOff w)
    (h0 : 0 ≤ endOff w) (h1 : endOff w < (U32 : Int))
    (hwd : w.voteLen + d < U32)
    (hcb : c1.cov + w.voteLen + d < U32) :
    (covStep c2 w).clust = (covStep c1 w).clust ∧
    (covStep c2 w).rb = (covStep c1 w).rb ∧
    (covStep c1 w).cov ≤ (covStep c2 w).cov ∧
    (covStep c1 w).cov ≤ c1.cov + w.voteLen ∧
    (covStep c2 w).cov ≤ c1.cov + w.voteLen + d := by
  simp only [covStep, endOff, u32ofInt, U32, decide_eq_true_eq] at *
  simp only [hclust, hrb, hcov]
  refine ⟨?_, ?_, ?_, ?_, ?_⟩
  all_goals try trivial
  all_goals try split_ifs with h
  all_goals omega

/-- Once the two runs share clust and rb, with the grown run at least as
    covered, processing any common suffix keeps the peak coverage of the
    grown run at least as large (no overflow along the way). -/
theorem covPeak_mono_suffix (d : Nat) :
    ∀ (votes : List KmerVote) (B : Nat) (c1 c2 : CovSt),
      c2.clust = c1.clust → c2.rb = c1.rb → c1.cov ≤ c2.cov →
      c1.cov ≤ B → c2.cov ≤ B + d → B + sumVL votes + d < U32 →
      covPeakAux c1 votes ≤ covPeakAux c2 votes := by
  intro votes
  induction votes with
  | nil => intro B c1 c2 _ _ _ _ _ _; simp [covPeakAux]
  | cons w ws ih =>
    intro B c1 c2 hclust hrb hcov hb1 hb2 hB
    have hsum : sumVL (w :: ws) = w.voteLen + sumVL ws := by
      simp [sumVL]
    have hstep : (covStep c2 w).clust = (covStep c1 w).clust ∧
        (covStep c2 w).rb = (covStep c1 w).rb ∧
        (covStep c1 w).cov ≤ (covStep c2 w).cov ∧
        (covStep c1 w).cov ≤ B + w.voteLen ∧
        (covStep c2 w).cov ≤ B + w.voteLen + d := by
      simp only [covStep, U32, decide_eq_true_eq] at *
      simp only [hclust, hrb]
      refine ⟨?_, ?_, ?_, ?_, ?_⟩
      all_goals try trivial
      all_goals try split_ifs with h
      all_goals omega
    obtain ⟨hc, hr, hcv, hv1, hv2⟩ := hstep
    have hrest := ih (B + w.voteLen) (covStep c1 w) (covStep c2 w)
      hc hr hcv hv1 hv2 (by omega)
    simp only [covPeakAux]
    omega

/-- Peak coverage of an appended list splits at the join. -/
theorem covPeakAux_append (xs : List KmerVote) :
    ∀ (ys : List KmerVote) (c : CovSt),
      covPeakAux c (xs ++ ys) = max (covPeakAux c xs) (covPeakAux (covRun c xs) ys) := by
  induction xs with
  | nil => intro ys c; simp [covPeakAux, covRun]
  | cons x xs ih =>
    intro ys c
    simp only [List.cons_append, covPeakAux, covRun, List.append_eq]
    rw [ih]
    omega

/-- Invariant of the coverage state along a processed prefix: the cluster
    key stays at or below the next votePos, and the rightmost base is zero
    or bounded by the end offset of the next vote (end offsets being
    nondecreasing), while the coverage is bounded by the consumed vote
    length. -/
theorem covRun_inv (votes : List KmerVote) :
    ∀ (c : CovSt) (v : KmerVote),
      List.Chain' (fun a b => endOff a ≤ endOff b) (votes ++ [v]) →
      List.Chain' (fun a b => a.votePos ≤ b.votePos) (votes ++ [v]) →
      (∀ w ∈ votes, 0 ≤ endOff w ∧ endOff w < (U32 : Int)) →
      c.clust ≤ (votes.headD v).votePos →
      (c.rb = 0 ∨ (c.rb : Int) ≤ endOff (votes.headD v)) →
      (covRun c votes).clust ≤ v.votePos ∧
      ((covRun c votes).rb = 0 ∨ ((covRun c votes).rb : Int) ≤ endOff v) ∧
      (covRun c votes).cov ≤ c.cov + sumVL votes := by
  induction votes with
  | nil =>
    intro c v _ _ _ hcl hrb
    simp only [List.headD] at hcl hrb
    exact ⟨hcl, hrb, by simp [covRun, sumVL]⟩
  | cons w ws ih =>
    intro c v hend hpos hbd hcl hrb
    have hhd : (ws ++ [v]).head? = some (ws.headD v) := by
      cases ws <;> rfl
    have hcl0 : c.clust ≤ w.votePos := by
      simpa using hcl
    have hwbd := hbd w (List.mem_cons_self _ _)
    have hposw : w.votePos ≤ (ws.headD v).votePos := by
      have := (List.chain'_cons'.mp hpos).1
      exact this _ hhd
    have hendw : endOff w ≤ endOff (ws.headD v) := by
      have := (List.chain'_cons'.mp hend).1
      exact this _ hhd
    have hstep_cl : (covStep c w).clust ≤ (ws.headD v).votePos :=
      le_trans (covStep_clust_le c w hcl0) hposw
    have hstep_rb : (covStep c w).rb = 0 ∨
        ((covStep c w).rb : Int) ≤ endOff (ws.headD v) := by
      right
      have hrbv : (covStep c w).rb = u32ofInt (endOff w) := rfl
      rw [hrbv]
      unfold u32ofInt U32 at *
      omega
    have hrest := ih (covStep c w) v (List.chain'_cons'.mp hend).2
      (List.chain'_cons'.mp hpos).2
      (fun x hx => hbd x (List.mem_cons_of_mem _ hx)) hstep_cl hstep_rb
    have hcov := covStep_cov_le c w
    refine ⟨hrest.1, hrest.2.1, ?_⟩
    have := hrest.2.2
    simp only [covRun] at *
    simp only [sumVL, List.map_cons, List.sum_cons] at *
    omega

/-- Core of the amended monotonicity: with a common entry state whose
    rightmost base does not exceed the end offset of v, the peak coverage
    over v :: post is monotone under growing v by d. -/
theorem covPeak_core (d : Nat) (c : CovSt) (v : KmerVote) (post : List KmerVote)
    (hrb : c.rb = 0 ∨ (c.rb : Int) ≤ endOff v)
    (hend : List.Chain' (fun a b => endOff a ≤ endOff b) (v :: post))
    (hnn : ∀ w ∈ v :: post, 0 ≤ endOff w)
    (hub : ∀ w ∈ v :: post, endOff w + d < (U32 : Int))
    (hcb : c.cov + sumVL (v :: post) + d < U32) :
    covPeakAux c (v :: post) ≤ covPeakAux c (growVote v d :: post) := by
  have h0v : 0 ≤ endOff v := hnn v (List.mem_cons_self _ _)
  have h1v : endOff v + d < (U32 : Int) := hub v (List.mem_cons_self _ _)
  have hsum : sumVL (v :: post) = v.voteLen + sumVL post := by simp [sumVL]
  have hcovv : c.cov + v.voteLen + d < U32 := by
    have : 0 ≤ sumVL post := Nat.zero_le _
    omega
  obtain ⟨hgc, hgr, hgv, hrb1, hcov1⟩ := covStep_grow d c v hrb h0v h1v hcovv
  cases post with
  | nil =>
    simp only [covPeakAux]
    omega
  | cons w rest =>
    have h0w : 0 ≤ endOff w := hnn w (List.mem_cons_of_mem _ (List.mem_cons_self _ _))
    have h1w : endOff w < (U32 : Int) := by
      have := hub w (List.mem_cons_of_mem _ (List.mem_cons_self _ _))
      omega
    have hendvw : endOff v ≤ endOff w := (List.chain'_cons.mp hend).1
    have hrble : ((covStep c v).rb : Int) ≤ endOff w := by
      rw [hrb1]
      unfold u32ofInt U32 at *
      omega
    have hsumr : sumVL (w :: rest) = w.voteLen + sumVL rest := by simp [sumVL]
    have hwd : w.voteLen + d < U32 := by omega
    have hcbw : (covStep c v).cov + w.voteLen + d < U32 := by
      have hb : (covStep c v).cov ≤ c.cov + v.voteLen := covStep_cov_le c v
      omega
    obtain ⟨hpc, hpr, hpv, hp1, hp2⟩ :=
      covStep_post_first d (covStep c v) (covStep c (growVote v d)) w
        hgc hgr hgv hrble h0w h1w hwd hcbw
    have hrest := covPeak_mono_suffix d rest ((covStep c v).cov + w.voteLen)
      (covStep (covStep c v) w) (covStep (covStep c (growVote v d)) w)
      hpc hpr hpv hp1 (by omega)
      (by
        have hb : (covStep c v).cov ≤ c.cov + v.voteLen := covStep_cov_le c v
        omega)
    simp only [covPeakAux] at *
    omega

theorem sumVL_append (xs ys : List KmerVote) :
    sumVL (xs ++ ys) = sumVL xs + sumVL ys := by
  simp [sumVL]

/-- Claim C8, amended: for a fixed forward vote list whose end offsets
    (votePos + readPos + voteLen) are nonnegative and nondecreasing in
    sorted order, and whose total vote length cannot overflow the 32-bit
    coverage counters, increasing the voteLen of any single vote by d never
    decreases bestHitScore.  (The nondecreasing-ends hypothesis excludes
    exactly the wrapped-subtraction situation of the counterexample, where a
    vote ends strictly before the previous rightmost base.) -/
theorem C8_amended_monotone
    (pre post rcVotes : List KmerVote) (v : KmerVote) (d : Nat) (readLen : Nat)
    (hsorted : (pre ++ v :: post).Sorted voteLe)
    (hend : List.Chain' (fun a b => endOff a ≤ endOff b) (pre ++ v :: post))
    (hnn : ∀ w ∈ pre ++ v :: post, 0 ≤ endOff w)
    (hub : ∀ w ∈ pre ++ v :: post, endOff w + d < (U32 : Int))
    (hsum : sumVL (pre ++ v :: post) + d < U32) :
    (computeBestChain (pre ++ v :: post) rcVotes readLen).bestHitScore ≤
      (computeBestChain (pre ++ growVote v d :: post) rcVotes readLen).bestHitScore := by
  have hs2 : (pre ++ growVote v d :: post).Sorted voteLe := sorted_grow hsorted
  have hnnvp : ∀ w ∈ v :: post, 0 ≤ endOff w := by
    intro w hw
    exact hnn w (List.mem_append_right _ hw)
  have hubvp : ∀ w ∈ v :: post, endOff w + d < (U32 : Int) := by
    intro w hw
    exact hub w (List.mem_append_right _ hw)
  have hendvp : List.Chain' (fun a b => endOff a ≤ endOff b) (v :: post) :=
    (List.chain'_append.mp hend).2.1
  -- peak coverage of the forward list is monotone under the growth
  have hb : bestCov (pre ++ v :: post) ≤ bestCov (pre ++ growVote v d :: post) := by
    cases pre with
    | nil =>
      have hcb : (⟨v.votePos, 0, 0⟩ : CovSt).cov + sumVL (v :: post) + d < U32 := by
        simpa using hsum
      have h := covPeak_core d ⟨v.votePos, 0, 0⟩ v post (Or.inl rfl)
        hendvp hnnvp hubvp hcb
      simpa [bestCov, growVote] using h
    | cons p pre2 =>
      have hsplit1 : (p :: pre2) ++ v :: post = (p :: pre2) ++ (v :: post) := rfl
      have hpos : List.Chain' (fun a b => a.votePos ≤ b.votePos)
          ((p :: pre2) ++ v :: post) := sorted_chain_votePos hsorted
      have hendpre : List.Chain' (fun a b => endOff a ≤ endOff b) ((p :: pre2) ++ [v]) := by
        rw [List.chain'_append]
        refine ⟨(List.chain'_append.mp hend).1, List.chain'_singleton v, ?_⟩
        intro x hx y hy
        simp only [List.head?_cons, Option.mem_def, Option.some.injEq] at hy
        subst hy
        have := (List.chain'_append.mp hend).2.2 x hx
        exact this v rfl
      have hpospre : List.Chain' (fun a b => a.votePos ≤ b.votePos)
          ((p :: pre2) ++ [v]) := by
        rw [List.chain'_append]
        refine ⟨(List.chain'_append.mp hpos).1, List.chain'_singleton v, ?_⟩
        intro x hx y hy
        simp only [List.head?_cons, Option.mem_def, Option.some.injEq] at hy
        subst hy
        have := (List.chain'_append.mp hpos).2.2 x hx
        exact this v rfl
      have hbdpre : ∀ w ∈ p :: pre2, 0 ≤ endOff w ∧ endOff w < (U32 : Int) := by
        intro w hw
        have h1 := hnn w (List.mem_append_left _ hw)
        have h2 := hub w (List.mem_append_left _ hw)
        constructor
        · exact h1
        · have hd : (0 : Int) ≤ (d : Int) := by positivity
          omega
      have hinv := covRun_inv (p :: pre2) ⟨p.votePos, 0, 0⟩ v hendpre hpospre hbdpre
        (by simp [List.headD]) (Or.inl rfl)
      have hcb : (covRun ⟨p.votePos, 0, 0⟩ (p :: pre2)).cov + sumVL (v :: post) + d < U32 := by
        have h1 := hinv.2.2
        have h2 : sumVL ((p :: pre2) ++ v :: post)
            = sumVL (p :: pre2) + sumVL (v :: post) := sumVL_append _ _
        simp only [CovSt.cov] at h1
        omega
      have hcore := covPeak_core d (covRun ⟨p.votePos, 0, 0⟩ (p :: pre2)) v post
        hinv.2.1 hendvp hnnvp hubvp hcb
      have he1 : bestCov ((p :: pre2) ++ v :: post)
          = max (covPeakAux ⟨p.votePos, 0, 0⟩ (p :: pre2))
              (covPeakAux (covRun ⟨p.votePos, 0, 0⟩ (p :: pre2)) (v :: post)) := by
        show covPeakAux ⟨p.votePos, 0, 0⟩ ((p :: pre2) ++ (v :: post)) = _
        rw [covPeakAux_append]
      have he2 : bestCov ((p :: pre2) ++ growVote v d :: post)
          = max (covPeakAux ⟨p.votePos, 0, 0⟩ (p :: pre2))
              (covPeakAux (covRun ⟨p.votePos, 0, 0⟩ (p :: pre2)) (growVote v d :: post)) := by
        show covPeakAux ⟨p.votePos, 0, 0⟩ ((p :: pre2) ++ (growVote v d :: post)) = _
        rw [covPeakAux_append]
      rw [he1, he2]
      omega
  -- transport to scores through the spec of computeBestChain
  have hsp1 := (computeBestChain_spec (pre ++ v :: post) rcVotes readLen).2.2
  have hsp2 := (computeBestChain_spec (pre ++ growVote v d :: post) rcVotes readLen).2.2
  have hsv1 : sortVotes (pre ++ v :: post) = pre ++ v :: post :=
    List.Sorted.insertionSort_eq hsorted
  have hsv2 : sortVotes (pre ++ growVote v d :: post) = pre ++ growVote v d :: post :=
    List.Sorted.insertionSort_eq hs2
  rw [hsv1] at hsp1
  rw [hsv2] at hsp2
  rw [hsp1, hsp2]
  have hmono : max (bestCov (pre ++ v :: post)) (bestCov (sortVotes rcVotes))
      ≤ max (bestCov (pre ++ growVote v d :: post)) (bestCov (sortVotes rcVotes)) := by
    omega
  rcases Nat.eq_zero_or_pos readLen with h0 | h0
  · simp [h0]
  · exact (div_le_div_iff_of_pos_right (by exact_mod_cast h0)).mpr (by exact_mod_cast hmono)

/-- Witness instantiating the amended C8 at a concrete input. -/
theorem C8_amended_monotone_witness :
    (computeBestChain ([] ++ ⟨0, 0, 5⟩ :: []) [] 10).bestHitScore ≤
      (computeBestChain ([] ++ growVote ⟨0, 0, 5⟩ 3 :: []) [] 10).bestHitScore :=
  C8_amended_monotone [] [] [] ⟨0, 0, 5⟩ 3 10 (by simp [List.Sorted])
    (by simp) (by decide) (by decide) (by decide)

/-! ## Hit collector: occurrence sampling (collectHitsForRead)

    Source: SalmonQuantify.cpp, collectHitsForRead, the loop over the
    occurrences of one MEM:
      step = p->x[2] > memOptions->max_occ ? p->x[2] / memOptions->max_occ : 1;
      for (k = count = 0; k < p->x[2] && count < max_occ; k += step, ++count)
    p->x[2] is the suffix-array interval size of the seed. -/

/-- The per-seed sampling step computed by the code: integer (floor)
    division of the interval size by maxOcc when the interval is larger,
    otherwise 1. -/
def occStep (intervalSize maxOcc : Nat) : Nat :=
  if intervalSize > maxOcc then intervalSize / maxOcc else 1

/-- Modelled from the spec: the step the specification describes, namely
    ceil(intervalSize / maxOcc) when the interval is larger than maxOcc,
    otherwise 1. -/
def specCeilStep (intervalSize maxOcc : Nat) : Nat :=
  if intervalSize > maxOcc then (intervalSize + maxOcc - 1) / maxOcc else 1

/-- The occurrence-offset loop: k starts at 0, advances by step, and stops
    when k reaches the interval size or the visit budget is exhausted. -/
def occVisitsAux (intervalSize step : Nat) : Nat → Nat → List Nat
  | _, 0 => []
  | k, rem + 1 =>
    if k < intervalSize then k :: occVisitsAux intervalSize step (k + step) rem
    else []

/-- The occurrence offsets (values of k) visited for one seed. -/
def occVisits (intervalSize maxOcc : Nat) : List Nat :=
  occVisitsAux intervalSize (occStep intervalSize maxOcc) 0 maxOcc

theorem occVisitsAux_spec (intervalSize step : Nat) :
    ∀ (rem k : Nat),
      (occVisitsAux intervalSize step k rem).length ≤ rem ∧
      occVisitsAux intervalSize step k rem =
        (List.range (occVisitsAux intervalSize step k rem).length).map
          (fun i => k + i * step) := by
  intro rem
  induction rem with
  | zero => intro k; simp [occVisitsAux]
  | succ n ih =>
    intro k
    by_cases h : k < intervalSize
    · obtain ⟨ihl, ihe⟩ := ih (k + step)
      refine ⟨?_, ?_⟩
      · simp only [occVisitsAux, if_pos h, List.length_cons]
        omega
      · simp only [occVisitsAux, if_pos h, List.length_cons]
        rw [List.range_succ_eq_map, List.map_cons, List.map_map, ihe]
        congr 1
        · simp
        · simp only [List.length_map, List.length_range]
          refine List.map_congr_left ?_
          intro i _
          simp only [Function.comp_apply, Nat.succ_eq_add_one]
          ring
    · simp [occVisitsAux, if_neg h]

/-- Claim C5 as stated is false on the step formula: for a seed whose
    suffix-array interval has 7 occurrences and maxOcc = 2, the code uses
    floor(7 / 2) = 3 (visiting offsets 0 and 3), not ceil(7 / 2) = 4. -/
theorem C5_counterexample :
    occStep 7 2 = 3 ∧ specCeilStep 7 2 = 4 ∧
    occStep 7 2 ≠ specCeilStep 7 2 ∧ occVisits 7 2 = [0, 3] := by
  decide

/-- Claim C5, amended: the hit collector visits at most maxOcc occurrences
    of the seed's suffix-array interval, sampled evenly at offsets
    0, step, 2·step, ... with step equal to floor(intervalSize / maxOcc)
    when intervalSize > maxOcc and step 1 otherwise. -/
theorem C5_amended_occ_sampling (intervalSize maxOcc : Nat) :
    (occVisits intervalSize maxOcc).length ≤ maxOcc ∧
    occVisits intervalSize maxOcc =
      (List.range (occVisits intervalSize maxOcc).length).map
        (fun i => i * occStep intervalSize maxOcc) := by
  obtain ⟨h1, h2⟩ := occVisitsAux_spec intervalSize (occStep intervalSize maxOcc) maxOcc 0
  refine ⟨h1, ?_⟩
  unfold occVisits
  rw [h2]
  simp

/-! ## Hit collector: spanning seeds (collectHitsForRead)

    Source: SalmonQuantify.cpp, lines 958-1042: a seed occurrence whose
    start and end fall in different transcripts of the concatenated
    reference (refIDStart != refIDEnd).  tlen/hitLoc/slen/queryStart/rlen
    are the state computed before the branch; len2rev is, for a
    reverse-strand hit, endPos - anns[refIDEnd].offset. -/

inductive SpanSide where
  | left
  | right
deriving DecidableEq

/-- The single vote (addFragMatch / addFragMatchRC arguments) that survives
    spanning-seed resolution, together with which side transcript it is
    charged to. -/
structure SpanVote where
  side : SpanSide
  hitLoc : Int
  seedLen : Int
  queryStart : Int
  readLen : Int
deriving DecidableEq

/-- Length of the piece of the seed that lies in the start-side transcript. -/
def spanLen1 (isRev : Bool) (tlen hitLoc slen len2rev : Int) : Int :=
  if isRev then slen - len2rev else tlen - hitLoc

/-- Length of the piece of the seed that lies in the other transcript. -/
def spanLen2 (isRev : Bool) (tlen hitLoc slen len2rev : Int) : Int :=
  if isRev then len2rev else slen - (tlen - hitLoc)

/-- The spanning-seed branch: none models both the splitSpanningSeeds-off
    discard and the both-pieces-too-short discard; otherwise exactly one
    vote survives, truncated to the longer side. -/
def resolveSpanningSeed (split : Bool) (minSeedLen : Int) (isRev : Bool)
    (tlen hitLoc slen queryStart rlen len2rev : Int) : Option SpanVote :=
  if !split then none
  else if !isRev then
    let len1 := tlen - hitLoc
    let len2 := slen - len1
    if max len1 len2 < minSeedLen then none
    else if len1 ≥ len2 then
      some ⟨SpanSide.left, hitLoc, len1, queryStart, rlen⟩
    else
      some ⟨SpanSide.right, 0, len2, queryStart + len1, rlen⟩
  else
    let len2 := len2rev
    let len1 := slen - len2
    if max len1 len2 < minSeedLen then none
    else if len1 ≥ len2 then
      some ⟨SpanSide.left, tlen - len2, len1, queryStart + len2, rlen - len2⟩
    else
      some ⟨SpanSide.right, len2, len2, queryStart, len2 + queryStart⟩

/-- Claim C6: a transcript-boundary-spanning seed occurrence produces no
    vote when splitSpanningSeeds is off; with it on, it is discarded when
    the longer side is shorter than minSeedLen, and otherwise exactly one
    vote is produced, charged to the longer side's transcript. -/
theorem C6_spanning_seed (split : Bool) (minSeedLen : Int) (isRev : Bool)
    (tlen hitLoc slen queryStart rlen len2rev : Int) :
    (resolveSpanningSeed split minSeedLen isRev
        tlen hitLoc slen queryStart rlen len2rev).map SpanVote.side =
      if split = false then none
      else if max (spanLen1 isRev tlen hitLoc slen len2rev)
                  (spanLen2 isRev tlen hitLoc slen len2rev) < minSeedLen then none
      else if spanLen1 isRev tlen hitLoc slen len2rev
              ≥ spanLen2 isRev tlen hitLoc slen len2rev then some SpanSide.left
      else some SpanSide.right := by
  unfold resolveSpanningSeed spanLen1 spanLen2
  cases split <;> cases isRev <;> simp <;> split_ifs <;> simp_all

/-! ## Library formats and alignments (LibraryFormat, SMEMAlignment) -/

inductive ReadKind where
  | single
  | paired
deriving DecidableEq

inductive MateOrientation where
  | sameDir
  | away
  | toward
  | noneOrient
deriving DecidableEq

inductive Strandedness where
  | U
  | S
  | A
  | SA
  | AS
deriving DecidableEq

/-- LibraryFormat: read type, relative orientation, strandedness. -/
structure LibFmt where
  rtype : ReadKind
  orient : MateOrientation
  strand : Strandedness
deriving DecidableEq

/-- SMEMAlignment.  The double logProb (initialised to LOG_0 by the
    constructor) is carried in the linear domain in the field prob, so a
    fresh alignment has prob = 0. -/
structure Aln where
  transcriptID : Nat
  fmt : LibFmt
  score : ℚ
  fragLength : Nat
  prob : ℚ
deriving DecidableEq

/-! ## Paired-end alignment emission (getHitsForFragment, paired overload)

    Source: SalmonQuantify.cpp, lines 1187-1221.  The left-end hit lists
    are chained first; then, for each transcript hit by the right end, an
    alignment is emitted iff the transcript was hit by the left end with
    chained score at least the cutoff and the right end also chains to at
    least the cutoff.  The library-format tag is computed by
    salmon::utils::hitType (declared in SalmonUtils.hpp, outside this
    repository snapshot), so it enters the model as an opaque parameter. -/

/-- The per-transcript vote accumulator (one CoverageCalculator =
    TranscriptHitList) before chaining. -/
structure TxpHits where
  votes : List KmerVote
  rcVotes : List KmerVote
deriving DecidableEq

/-- Chaining one accumulator against a read of the given length. -/
def chainOf (p : TxpHits) (readLen : Nat) : ChainOut :=
  computeBestChain p.votes p.rcVotes readLen

/-- The emission loop over the right-end hit map. -/
def pairedEmit (hitTypeF : Int → Bool → Int → Bool → LibFmt)
    (leftHits rightHits : List (Nat × TxpHits))
    (leftReadLen rightReadLen : Nat) (coverageThresh : ℚ) : List Aln :=
  rightHits.filterMap (fun tr =>
    match List.lookup tr.1 leftHits with
    | none => none
    | some lp =>
      let lc := chainOf lp leftReadLen
      if lc.bestHitScore ≥ coverageThresh then
        let rc := chainOf tr.2 rightReadLen
        if rc.bestHitScore < coverageThresh then none
        else
          let score := (lc.bestHitScore + rc.bestHitScore) * (1 / 2 : ℚ)
          let fragLength := (lc.bestHitPos - rc.bestHitPos).natAbs + rightReadLen
          let end1Pos : Int :=
            if lc.isForward then lc.bestHitPos else lc.bestHitPos + leftReadLen
          let end2Pos : Int :=
            if rc.isForward then rc.bestHitPos else rc.bestHitPos + rightReadLen
          some ⟨tr.1, hitTypeF end1Pos lc.isForward end2Pos rc.isForward,
                score, fragLength, 0⟩
      else none)

/-- Claim C4: a paired-end fragment yields an emitted SMEMAlignment for a
    transcript only if both ends' best chain scores independently reach
    coverageThresh on that transcript; the emitted alignment's score is the
    arithmetic mean of the two ends' bestHitScore values, and its
    fragLength is |end1Start - end2Start| + rightReadLen (the second read's
    length). -/
theorem C4_paired_emission (hitTypeF : Int → Bool → Int → Bool → LibFmt)
    (leftHits rightHits : List (Nat × TxpHits))
    (leftReadLen rightReadLen : Nat) (coverageThresh : ℚ) (a : Aln)
    (ha : a ∈ pairedEmit hitTypeF leftHits rightHits leftReadLen rightReadLen
            coverageThresh) :
    ∃ lp rp : TxpHits,
      List.lookup a.transcriptID leftHits = some lp ∧
      (a.transcriptID, rp) ∈ rightHits ∧
      (chainOf lp leftReadLen).bestHitScore ≥ coverageThresh ∧
      (chainOf rp rightReadLen).bestHitScore ≥ coverageThresh ∧
      a.score = ((chainOf lp leftReadLen).bestHitScore
                  + (chainOf rp rightReadLen).bestHitScore) / 2 ∧
      a.fragLength = ((chainOf lp leftReadLen).bestHitPos
                  - (chainOf rp rightReadLen).bestHitPos).natAbs + rightReadLen := by
  unfold pairedEmit at ha
  rw [List.mem_filterMap] at ha
  obtain ⟨tr, htr, hf⟩ := ha
  rcases hlk : List.lookup tr.1 leftHits with _ | lp
  · rw [hlk] at hf
    dsimp only at hf
    exact Option.noConfusion hf
  · rw [hlk] at hf
    dsimp only at hf
    by_cases h1 : (chainOf lp leftReadLen).bestHitScore ≥ coverageThresh
    · rw [if_pos h1] at hf
      by_cases h2 : (chainOf tr.2 rightReadLen).bestHitScore < coverageThresh
      · rw [if_pos h2] at hf
        exact Option.noConfusion hf
      · rw [if_neg h2] at hf
        injection hf with hh
        subst hh
        refine ⟨lp, tr.2, ?_, ?_, h1, not_lt.mp h2, ?_, rfl⟩
        · exact hlk
        · simpa using htr
        · show ((chainOf lp leftReadLen).bestHitScore
              + (chainOf tr.2 rightReadLen).bestHitScore) * (1 / 2 : ℚ) = _
          ring
    · rw [if_neg h1] at hf
      exact Option.noConfusion hf

/-- Witness for C4 at a concrete input: one transcript hit by both ends
    with empty vote lists, scores 0 against a zero coverage threshold. -/
theorem C4_paired_emission_witness :
    ∃ lp rp : TxpHits,
      List.lookup 0 [(0, TxpHits.mk [] [])] = some lp ∧
      ((0 : Nat), rp) ∈ [(0, TxpHits.mk [] [])] ∧
      (chainOf lp 4).bestHitScore ≥ 0 ∧
      (chainOf rp 6).bestHitScore ≥ 0 ∧
      (Aln.mk 0 (LibFmt.mk ReadKind.paired MateOrientation.toward Strandedness.U)
          (((0 : ℚ) + 0) * (1 / 2)) (((0 : Int) - 0).natAbs + 6) 0).score
        = ((chainOf lp 4).bestHitScore + (chainOf rp 6).bestHitScore) / 2 ∧
      (Aln.mk 0 (LibFmt.mk ReadKind.paired MateOrientation.toward Strandedness.U)
          (((0 : ℚ) + 0) * (1 / 2)) (((0 : Int) - 0).natAbs + 6) 0).fragLength
        = ((chainOf lp 4).bestHitPos - (chainOf rp 6).bestHitPos).natAbs + 6 :=
  C4_paired_emission
    (fun _ _ _ _ => LibFmt.mk ReadKind.paired MateOrientation.toward Strandedness.U)
    [(0, TxpHits.mk [] [])] [(0, TxpHits.mk [] [])] 4 6 0
    (Aln.mk 0 (LibFmt.mk ReadKind.paired MateOrientation.toward Strandedness.U)
      (((0 : ℚ) + 0) * (1 / 2)) (((0 : Int) - 0).natAbs + 6) 0)
    (List.mem_cons_self _ _)

/-! ## Mini-batch EM worker (processMiniBatch)

    Source: SalmonQuantify.cpp, processMiniBatch, lines 289-462.  All
    log-domain quantities are carried in the linear domain (see the header
    comment): LOG_0 = 0, LOG_1 = 1, LOG_ONEHALF = 1/2, logAdd = +,
    log-sum subtraction = division, Transcript::mass and
    FragmentLengthDistribution::pmf (both declared outside this snapshot)
    are rational-valued inputs.  External effects the claims talk about —
    FLD.addVal calls, ClusterForest updates, libTypeCounts and
    total/unique count increments — are recorded as events. -/

/-- logAlignFormatProb (lines 268-287), linear domain. -/
def alignFormatProbLin (observed expected : LibFmt) : ℚ :=
  if observed.rtype ≠ expected.rtype ∨ observed.orient ≠ expected.orient then 0
  else if expected.strand = Strandedness.U then 1 / 2
  else if expected.strand = observed.strand then 1
  else 0

/-- The per-transcript state the E-step reads: mass (linear domain) and
    RefLength. -/
structure EMTranscript where
  mass : ℚ
  refLength : Nat
deriving DecidableEq

/-- The context one mini-batch group is processed in. -/
structure EMCtx where
  transcripts : List EMTranscript
  useFragLenDist : Bool
  useReadCompat : Bool
  pmf : Nat → ℚ
  expFmt : LibFmt
  burnedIn : Bool
  updateCounts : Bool

/-- transcripts[transcriptID]; out-of-range access is undefined behaviour
    in the C++ and is modelled by a zero-mass default. -/
def txpOf (ctx : EMCtx) (tid : Nat) : EMTranscript :=
  ctx.transcripts.getD tid ⟨0, 0⟩

/-- Result of the E-step loop over one alignment group (lines 346-389):
    the alignments with logProb set, the running logAdd accumulator
    sumOfAlignProbs, the libTypeCounts increments, the addTotalCount
    events, the observedTranscripts set, and the transcriptUnique flag. -/
structure EStepRes where
  alns : List Aln
  probSum : ℚ
  libCounts : List LibFmt
  totalCountEvents : List Nat
  seen : List Nat
  txpUnique : Bool

/-- The E-step loop body, iterated over the group's alignments. -/
def eStepLoop (ctx : EMCtx) (firstTID : Nat) : List Nat → List Aln → EStepRes
  | seen, [] => ⟨[], 0, [], [], seen, true⟩
  | seen, a :: rest =>
    let t := txpOf ctx a.transcriptID
    if t.mass ≠ 0 then
      let refLength : ℚ := if t.refLength > 0 then (t.refLength : ℚ) else 1
      let logFragProb : ℚ :=
        if ctx.useFragLenDist then
          (if a.fragLength > 0 then ctx.pmf a.fragLength else 1)
        else 1
      let logAlignCompatProb : ℚ :=
        if ctx.useReadCompat then alignFormatProbLin a.fmt ctx.expFmt else 1
      let a2 := { a with prob := (t.mass / refLength) * logFragProb * logAlignCompatProb }
      let notSeen := a.transcriptID ∉ seen
      let seen2 := if notSeen then a.transcriptID :: seen else seen
      let tcEv := if notSeen ∧ ctx.updateCounts then [a.transcriptID] else []
      let r := eStepLoop ctx firstTID seen2 rest
      ⟨a2 :: r.alns, a2.prob + r.probSum, a.fmt :: r.libCounts,
        tcEv ++ r.totalCountEvents, r.seen,
        decide (a.transcriptID = firstTID) && r.txpUnique⟩
    else
      let a2 := { a with prob := 0 }
      let r := eStepLoop ctx firstTID seen rest
      ⟨a2 :: r.alns, r.probSum, r.libCounts, r.totalCountEvents, r.seen,
        decide (a.transcriptID = firstTID) && r.txpUnique⟩

/-- One FLD.addVal invocation, with the sampling data that guarded it. -/
structure FldEvent where
  fragLength : Nat
  rnd : ℚ
  prob : ℚ
deriving DecidableEq

/-- The normalization loop (lines 400-416): divide each alignment's
    probability by the group sum, then sample an FLD update with a fresh
    uniform draw per alignment. -/
def normalizeLoop (burnedIn : Bool) (probSum : ℚ) (draws : Nat → ℚ) :
    Nat → List Aln → List Aln × List FldEvent
  | _, [] => ([], [])
  | i, a :: rest =>
    let a2 := { a with prob := a.prob / probSum }
    let rnd := draws i
    let ev :=
      if burnedIn = false ∧ rnd < a2.prob then
        (if a.fragLength > 0 then [FldEvent.mk a.fragLength rnd a2.prob] else [])
      else []
    let r := normalizeLoop burnedIn probSum draws (i + 1) rest
    (a2 :: r.1, ev ++ r.2)

/-- ClusterForest mutations performed for one group (lines 419-427). -/
inductive ClusterEvent where
  | updateCluster (tid : Nat)
  | mergeClusters (tids : List Nat)
deriving DecidableEq

/-- What processing one alignment group produces. -/
structure GroupResult where
  alns : List Aln
  assignedDelta : Nat
  clusterEvents : List ClusterEvent
  fldEvents : List FldEvent
  libCounts : List LibFmt
  totalCountEvents : List Nat
  uniqueCountEvents : List Nat

/-- Processing of one alignment group inside processMiniBatch: empty
    groups are skipped outright; otherwise the E-step runs, a group whose
    sumOfAlignProbs is LOG_0 (= 0 here) is skipped (not assigned, no
    normalization, no cluster update), and otherwise the group is
    normalized, sampled for FLD updates, counted as assigned, and its
    cluster bookkeeping recorded. -/
def processGroup (ctx : EMCtx) (g : List Aln) (draws : Nat → ℚ) : GroupResult :=
  match g with
  | [] => ⟨[], 0, [], [], [], [], []⟩
  | a0 :: _ =>
    let e := eStepLoop ctx a0.transcriptID [] g
    if e.probSum = 0 then
      ⟨e.alns, 0, [], [], e.libCounts, e.totalCountEvents, []⟩
    else
      let n := normalizeLoop ctx.burnedIn e.probSum draws 0 e.alns
      let clusterEvents :=
        if e.txpUnique then [ClusterEvent.updateCluster a0.transcriptID]
        else [ClusterEvent.mergeClusters (n.1.map Aln.transcriptID),
              ClusterEvent.updateCluster a0.transcriptID]
      let uniqueEvs :=
        if e.txpUnique ∧ ctx.updateCounts then [a0.transcriptID] else []
      ⟨n.1, 1, clusterEvents, n.2, e.libCounts, e.totalCountEvents, uniqueEvs⟩

/-- sumOfAlignProbs for a group (0 for an empty group, which is skipped
    before the accumulator is even created). -/
def groupProbSum (ctx : EMCtx) (g : List Aln) : ℚ :=
  match g with
  | [] => 0
  | a0 :: _ => (eStepLoop ctx a0.transcriptID [] g).probSum

/-- The mass a set of alignments contributes to transcript tid in the
    M-step (lines 436-457): the logAdd (linear: sum) of the logProbs of the
    alignments hitting tid; the transcript update is
    logForgettingMass + hitMass, i.e. forgettingMass * contribution here. -/
def massContribution (tid : Nat) (alns : List Aln) : ℚ :=
  ((alns.filter (fun a => a.transcriptID == tid)).map Aln.prob).sum

/-- The M-step over the whole batch: every transcript's mass receives
    logAdd(mass, logForgettingMass + hitMass); transcripts hit by no
    alignment of the batch receive hitMass = LOG_0, i.e. nothing. -/
def mStep (transcripts : List EMTranscript) (forgettingMass : ℚ)
    (allAlns : List Aln) : List EMTranscript :=
  transcripts.mapIdx (fun tid t =>
    { t with mass := t.mass + forgettingMass * massContribution tid allAlns })

/-- The mutable state processMiniBatch threads between batches. -/
structure EMState where
  transcripts : List EMTranscript
  numAssignedFragments : Nat
  burnedIn : Bool

/-- The per-run options of the EM worker. -/
structure EMOpts where
  useFragLenDist : Bool
  useReadCompat : Bool
  pmf : Nat → ℚ
  expFmt : LibFmt
  updateCounts : Bool

def mkCtx (opts : EMOpts) (s : EMState) : EMCtx :=
  ⟨s.transcripts, opts.useFragLenDist, opts.useReadCompat, opts.pmf,
    opts.expFmt, s.burnedIn, opts.updateCounts⟩

/-- constexpr uint64_t numBurninFrags = 5000000 (line 309). -/
def numBurninFrags : Nat := 5000000

/-- One call of processMiniBatch on a batch of alignment groups: E-step and
    per-group bookkeeping, the M-step mass updates, the numAssignedFragments
    accumulation, and the burn-in flip once at least numBurninFrags
    fragments have been assigned in total. -/
def processMiniBatchM (opts : EMOpts) (forgettingMass : ℚ)
    (batch : List (List Aln)) (draws : Nat → Nat → ℚ) (s : EMState) :
    EMState × List FldEvent :=
  let ctx := mkCtx opts s
  let results := batch.enum.map (fun p => processGroup ctx p.2 (draws p.1))
  let allAlns := (results.map GroupResult.alns).flatten
  let assigned := (results.map GroupResult.assignedDelta).sum
  let transcripts2 := mStep s.transcripts forgettingMass allAlns
  let numAssigned2 := s.numAssignedFragments + assigned
  let burned2 := s.burnedIn || decide (numAssigned2 ≥ numBurninFrags)
  (⟨transcripts2, numAssigned2, burned2⟩, (results.map GroupResult.fldEvents).flatten)

/-- A sequence of mini-batches (each with its logForgettingMass, its groups
    and its stream of uniform draws), run in order. -/
def runEM (opts : EMOpts) :
    EMState → List (ℚ × List (List Aln) × (Nat → Nat → ℚ)) →
      EMState × List FldEvent
  | s, [] => (s, [])
  | s, b :: bs =>
    let r1 := processMiniBatchM opts b.1 b.2.1 b.2.2 s
    let r2 := runEM opts r1.1 bs
    (r2.1, r1.2 ++ r2.2)

/-! ### E-step characterization and supporting lemmas -/

theorem clampLen_eq (n : Nat) :
    (if n > 0 then (n : ℚ) else 1) = ((max 1 n : ℕ) : ℚ) := by
  rcases Nat.eq_zero_or_pos n with h | h
  · subst h; simp
  · rw [if_pos h]
    have : max 1 n = n := by omega
    rw [this]

/-- The alignments produced by the E-step loop: each one carries exactly
    the probability the specification describes (linear domain): 0 when the
    transcript's mass is LOG_0, and otherwise
    mass / (length clamped to at least 1) times the fragment-length factor
    times the orientation-compatibility factor. -/
theorem eStep_alns_eq (ctx : EMCtx) (firstTID : Nat) :
    ∀ (g : List Aln) (seen : List Nat),
      (eStepLoop ctx firstTID seen g).alns = g.map (fun a =>
        { a with prob :=
            if (txpOf ctx a.transcriptID).mass = 0 then 0
            else ((txpOf ctx a.transcriptID).mass
                    / ((max 1 (txpOf ctx a.transcriptID).refLength : ℕ) : ℚ))
                 * (if ctx.useFragLenDist = true ∧ 0 < a.fragLength then
                      ctx.pmf a.fragLength else 1)
                 * (if ctx.useReadCompat = true then
                      alignFormatProbLin a.fmt ctx.expFmt else 1) }) := by
  intro g
  induction g with
  | nil => intro seen; rfl
  | cons a rest ih =>
    intro seen
    by_cases hm : (txpOf ctx a.transcriptID).mass = 0
    · simp only [eStepLoop]
      rw [if_neg (fun hc => hc hm)]
      simp only [List.map_cons]
      rw [ih]
      congr 1
      rw [if_pos hm]
    · simp only [eStepLoop]
      rw [if_pos hm]
      simp only [List.map_cons]
      rw [ih]
      congr 1
      have hfrag : (if ctx.useFragLenDist = true then
            (if a.fragLength > 0 then ctx.pmf a.fragLength else 1) else 1)
          = (if ctx.useFragLenDist = true ∧ 0 < a.fragLength then
              ctx.pmf a.fragLength else 1) := by
        cases hu : ctx.useFragLenDist
        · simp
        · by_cases hf : 0 < a.fragLength
          · simp [hf]
          · simp [hf]
      rw [if_neg hm, clampLen_eq, hfrag]

theorem eStep_probSum_eq (ctx : EMCtx) (firstTID : Nat) :
    ∀ (g : List Aln) (seen : List Nat),
      (eStepLoop ctx firstTID seen g).probSum =
        (((eStepLoop ctx firstTID seen g).alns).map Aln.prob).sum := by
  intro g
  induction g with
  | nil => intro seen; simp [eStepLoop]
  | cons a rest ih =>
    intro seen
    by_cases hm : (txpOf ctx a.transcriptID).mass = 0
    · simp only [eStepLoop]
      rw [if_neg (fun hc => hc hm)]
      simp only [List.map_cons, List.sum_cons]
      rw [ih]
      simp
    · simp only [eStepLoop]
      rw [if_pos hm]
      simp only [List.map_cons, List.sum_cons]
      rw [ih]

theorem alignFormatProbLin_nonneg (o e : LibFmt) : 0 ≤ alignFormatProbLin o e := by
  unfold alignFormatProbLin
  split_ifs <;> norm_num

theorem txpOf_mass_nonneg (ctx : EMCtx) (tid : Nat)
    (hm : ∀ t ∈ ctx.transcripts, 0 ≤ t.mass) : 0 ≤ (txpOf ctx tid).mass := by
  unfold txpOf
  rcases he : ctx.transcripts[tid]? with _ | t
  · rw [List.getD_eq_getElem?_getD, he]
    norm_num
  · rw [List.getD_eq_getElem?_getD, he]
    exact hm t (List.getElem?_mem he)

theorem eStep_prob_nonneg (ctx : EMCtx) (firstTID : Nat) (g : List Aln)
    (seen : List Nat)
    (hm : ∀ t ∈ ctx.transcripts, 0 ≤ t.mass)
    (hp : ∀ n, 0 ≤ ctx.pmf n) :
    ∀ a ∈ (eStepLoop ctx firstTID seen g).alns, 0 ≤ a.prob := by
  intro a2 ha2
  rw [eStep_alns_eq] at ha2
  rw [List.mem_map] at ha2
  obtain ⟨a, _, hae⟩ := ha2
  subst hae
  simp only []
  by_cases h1 : (txpOf ctx a.transcriptID).mass = 0
  · rw [if_pos h1]
  · rw [if_neg h1]
    have hA : 0 ≤ (txpOf ctx a.transcriptID).mass
        / ((max 1 (txpOf ctx a.transcriptID).refLength : ℕ) : ℚ) :=
      div_nonneg (txpOf_mass_nonneg ctx _ hm) (by positivity)
    have hB : 0 ≤ (if ctx.useFragLenDist = true ∧ 0 < a.fragLength then
        ctx.pmf a.fragLength else 1) := by
      split_ifs
      · exact hp _
      · norm_num
    have hC : 0 ≤ (if ctx.useReadCompat = true then
        alignFormatProbLin a.fmt ctx.expFmt else 1) := by
      split_ifs
      · exact alignFormatProbLin_nonneg _ _
      · norm_num
    exact mul_nonneg (mul_nonneg hA hB) hC

theorem sum_zero_of_nonneg :
    ∀ (l : List ℚ), (∀ x ∈ l, 0 ≤ x) → l.sum = 0 → ∀ x ∈ l, x = 0 := by
  intro l
  induction l with
  | nil => intro _ _ x hx; cases hx
  | cons y ys ih =>
    intro hnn hsum x hx
    have hy : 0 ≤ y := hnn y (List.mem_cons_self _ _)
    have hys : 0 ≤ ys.sum := List.sum_nonneg (fun z hz => hnn z (List.mem_cons_of_mem _ hz))
    rw [List.sum_cons] at hsum
    have hy0 : y = 0 := by linarith
    have hs0 : ys.sum = 0 := by linarith
    rcases List.mem_cons.mp hx with h | h
    · subst h; exact hy0
    · exact ih (fun z hz => hnn z (List.mem_cons_of_mem _ hz)) hs0 x h

theorem massContribution_zero (tid : Nat) (alns : List Aln)
    (h : ∀ a ∈ alns, a.prob = 0) : massContribution tid alns = 0 := by
  unfold massContribution
  apply List.sum_eq_zero
  intro x hx
  rw [List.mem_map] at hx
  obtain ⟨a, ha, hae⟩ := hx
  subst hae
  exact h a (List.mem_filter.mp ha).1

theorem normalize_alns_eq (burnedIn : Bool) (probSum : ℚ) (draws : Nat → ℚ) :
    ∀ (alns : List Aln) (i : Nat),
      (normalizeLoop burnedIn probSum draws i alns).1 =
        alns.map (fun a => { a with prob := a.prob / probSum }) := by
  intro alns
  induction alns with
  | nil => intro i; rfl
  | cons a rest ih =>
    intro i
    simp only [normalizeLoop, List.map_cons]
    rw [ih]

theorem list_sum_div (S : ℚ) :
    ∀ (l : List ℚ), (l.map (fun x => x / S)).sum = l.sum / S := by
  intro l
  induction l with
  | nil => simp
  | cons x xs ih =>
    simp only [List.map_cons, List.sum_cons, ih]
    rw [add_div]

/-! ### Claims C1, C2, C3, C7 -/

/-- Claim C1: in the E-step of processMiniBatch, an alignment whose
    transcript has mass LOG_0 gets logProb = LOG_0 (prob = 0 in the linear
    domain); every other alignment gets, in the linear domain,
    prob = (mass / clamp(length, 1)) * fragProb * orientationProb, where
    fragProb is FLD.pmf(fragLength) exactly when useFragLenDist is set and
    fragLength > 0 (and 1, i.e. log 1, otherwise), and orientationProb is
    the library-format compatibility factor when useReadCompat is set
    (1 otherwise). -/
theorem C1_estep_logprob (ctx : EMCtx) (firstTID : Nat) (g : List Aln)
    (seen : List Nat) :
    (eStepLoop ctx firstTID seen g).alns = g.map (fun a =>
      { a with prob :=
          if (txpOf ctx a.transcriptID).mass = 0 then 0
          else ((txpOf ctx a.transcriptID).mass
                  / ((max 1 (txpOf ctx a.transcriptID).refLength : ℕ) : ℚ))
               * (if ctx.useFragLenDist = true ∧ 0 < a.fragLength then
                    ctx.pmf a.fragLength else 1)
               * (if ctx.useReadCompat = true then
                    alignFormatProbLin a.fmt ctx.expFmt else 1) }) :=
  eStep_alns_eq ctx firstTID g seen

/-- Claim C2: a group whose sumOfAlignProbs is LOG_0 (linear: 0) is
    skipped — not counted as assigned, no ClusterForest mutation, and a
    zero M-step mass contribution to every transcript; a surviving group
    has sumOfAlignProbs divided out of every alignment, after which the
    alignment probabilities of the group sum to exactly 1. -/
theorem C2_group_normalization (ctx : EMCtx) (g : List Aln) (draws : Nat → ℚ)
    (hm : ∀ t ∈ ctx.transcripts, 0 ≤ t.mass)
    (hp : ∀ n, 0 ≤ ctx.pmf n) :
    (groupProbSum ctx g = 0 →
      (processGroup ctx g draws).assignedDelta = 0 ∧
      (processGroup ctx g draws).clusterEvents = [] ∧
      ∀ tid, massContribution tid ((processGroup ctx g draws).alns) = 0) ∧
    (groupProbSum ctx g ≠ 0 →
      (((processGroup ctx g draws).alns).map Aln.prob).sum = 1) := by
  cases g with
  | nil =>
    refine ⟨fun _ => ⟨rfl, rfl, fun tid => rfl⟩, fun h => absurd rfl h⟩
  | cons a0 rest =>
    constructor
    · intro hS
      unfold groupProbSum at hS
      unfold processGroup
      dsimp only at hS ⊢
      rw [if_pos hS]
      refine ⟨rfl, rfl, fun tid => ?_⟩
      apply massContribution_zero
      intro a ha
      refine sum_zero_of_nonneg _ ?_ ?_ a.prob (List.mem_map_of_mem Aln.prob ha)
      · intro x hx
        rw [List.mem_map] at hx
        obtain ⟨b, hb, hbe⟩ := hx
        subst hbe
        exact eStep_prob_nonneg ctx a0.transcriptID (a0 :: rest) [] hm hp b hb
      · rw [← eStep_probSum_eq]
        exact hS
    · intro hS
      unfold groupProbSum at hS
      unfold processGroup
      dsimp only at hS ⊢
      rw [if_neg hS]
      dsimp only
      rw [normalize_alns_eq]
      rw [List.map_map]
      have hcomp : (Aln.prob ∘ fun a : Aln =>
          { a with prob := a.prob / (eStepLoop ctx a0.transcriptID [] (a0 :: rest)).probSum })
          = ((fun x : ℚ => x / (eStepLoop ctx a0.transcriptID [] (a0 :: rest)).probSum)
              ∘ Aln.prob) := rfl
      rw [hcomp, ← List.map_map, list_sum_div, ← eStep_probSum_eq]
      exact div_self hS

/-- Witness for C2 at a concrete input (the skipped-group branch: a single
    alignment against an empty transcript table, so the transcript mass is
    LOG_0 and the group sum is LOG_0). -/
theorem C2_group_normalization_witness :
    (processGroup (EMCtx.mk [] false false (fun _ => 0)
        (LibFmt.mk ReadKind.single MateOrientation.noneOrient Strandedness.U) false false)
      [Aln.mk 0 (LibFmt.mk ReadKind.single MateOrientation.noneOrient Strandedness.U) 0 0 0]
      (fun _ => 0)).assignedDelta = 0 ∧
    (processGroup (EMCtx.mk [] false false (fun _ => 0)
        (LibFmt.mk ReadKind.single MateOrientation.noneOrient Strandedness.U) false false)
      [Aln.mk 0 (LibFmt.mk ReadKind.single MateOrientation.noneOrient Strandedness.U) 0 0 0]
      (fun _ => 0)).clusterEvents = [] ∧
    ∀ tid, massContribution tid
      ((processGroup (EMCtx.mk [] false false (fun _ => 0)
          (LibFmt.mk ReadKind.single MateOrientation.noneOrient Strandedness.U) false false)
        [Aln.mk 0 (LibFmt.mk ReadKind.single MateOrientation.noneOrient Strandedness.U) 0 0 0]
        (fun _ => 0)).alns) = 0 :=
  (C2_group_normalization
    (EMCtx.mk [] false false (fun _ => 0)
      (LibFmt.mk ReadKind.single MateOrientation.noneOrient Strandedness.U) false false)
    [Aln.mk 0 (LibFmt.mk ReadKind.single MateOrientation.noneOrient Strandedness.U) 0 0 0]
    (fun _ => 0) (by simp) (fun n => le_refl 0)).1 (by decide)

/-! ### Burn-in and FLD sampling (claim C3) -/

theorem normalize_events_guard (burnedIn : Bool) (probSum : ℚ) (draws : Nat → ℚ) :
    ∀ (alns : List Aln) (i : Nat),
      ∀ e ∈ (normalizeLoop burnedIn probSum draws i alns).2,
        burnedIn = false ∧ 0 < e.fragLength ∧ e.rnd < e.prob := by
  intro alns
  induction alns with
  | nil => intro i e he; cases he
  | cons a rest ih =>
    intro i e he
    simp only [normalizeLoop] at he
    rw [List.mem_append] at he
    rcases he with he | he
    · by_cases hg : burnedIn = false ∧ draws i < a.prob / probSum
      · rw [if_pos hg] at he
        by_cases hf : a.fragLength > 0
        · rw [if_pos hf] at he
          rcases List.mem_singleton.mp he with he2
          subst he2
          exact ⟨hg.1, hf, hg.2⟩
        · rw [if_neg hf] at he
          cases he
      · rw [if_neg hg] at he
        cases he
    · exact ih (i + 1) e he

theorem processGroup_events_guard (ctx : EMCtx) (g : List Aln) (draws : Nat → ℚ) :
    ∀ e ∈ (processGroup ctx g draws).fldEvents,
      ctx.burnedIn = false ∧ 0 < e.fragLength ∧ e.rnd < e.prob := by
  intro e he
  cases g with
  | nil => cases he
  | cons a0 rest =>
    unfold processGroup at he
    dsimp only at he
    by_cases hS : (eStepLoop ctx a0.transcriptID [] (a0 :: rest)).probSum = 0
    · rw [if_pos hS] at he
      cases he
    · rw [if_neg hS] at he
      exact normalize_events_guard ctx.burnedIn _ draws _ 0 e he

theorem miniBatch_events_guard (opts : EMOpts) (forgettingMass : ℚ)
    (batch : List (List Aln)) (draws : Nat → Nat → ℚ) (s : EMState) :
    ∀ e ∈ (processMiniBatchM opts forgettingMass batch draws s).2,
      s.burnedIn = false ∧ 0 < e.fragLength ∧ e.rnd < e.prob := by
  intro e he
  unfold processMiniBatchM at he
  dsimp only at he
  rw [List.mem_flatten] at he
  obtain ⟨l, hl, hel⟩ := he
  rw [List.mem_map] at hl
  obtain ⟨r, hr, hre⟩ := hl
  subst hre
  rw [List.mem_map] at hr
  obtain ⟨p, _, hpe⟩ := hr
  subst hpe
  exact processGroup_events_guard (mkCtx opts s) p.2 (draws p.1) e hel

theorem miniBatch_burnedIn_invariant (opts : EMOpts) (forgettingMass : ℚ)
    (batch : List (List Aln)) (draws : Nat → Nat → ℚ) (s : EMState)
    (h : s.burnedIn = decide (s.numAssignedFragments ≥ numBurninFrags)) :
    (processMiniBatchM opts forgettingMass batch draws s).1.burnedIn =
      decide ((processMiniBatchM opts forgettingMass batch draws s).1.numAssignedFragments
        ≥ numBurninFrags) := by
  unfold processMiniBatchM
  dsimp only
  rw [h]
  by_cases h2 : s.numAssignedFragments ≥ numBurninFrags
  · rw [decide_eq_true h2, Bool.true_or]
    symm
    exact decide_eq_true (Nat.le_trans h2 (Nat.le_add_right _ _))
  · rw [decide_eq_false h2, Bool.false_or]

/-- Claim C3: starting from a state where the burn-in flag equals whether
    numAssignedFragments has reached 5,000,000: (1) that relation is an
    invariant of every mini-batch sequence — burnedIn becomes and stays true
    exactly when the running total of assigned fragments first reaches
    numBurninFrags = 5,000,000; (2) FLD.addVal is invoked only for an
    alignment with fragLength > 0 whose uniform draw r satisfies
    r < exp(logProb) (linear: r < prob); (3) once burnedIn is true, no FLD
    update ever occurs again. -/
theorem C3_fld_burnin (opts : EMOpts) (s : EMState)
    (batches : List (ℚ × List (List Aln) × (Nat → Nat → ℚ)))
    (hinv : s.burnedIn = decide (s.numAssignedFragments ≥ numBurninFrags)) :
    (runEM opts s batches).1.burnedIn =
      decide ((runEM opts s batches).1.numAssignedFragments ≥ numBurninFrags) ∧
    (∀ e ∈ (runEM opts s batches).2, 0 < e.fragLength ∧ e.rnd < e.prob) ∧
    (s.burnedIn = true → (runEM opts s batches).2 = []) := by
  induction batches generalizing s with
  | nil =>
    exact ⟨hinv, fun e he => absurd he (by simp [runEM]), fun _ => rfl⟩
  | cons b bs ih =>
    have hinv1 := miniBatch_burnedIn_invariant opts b.1 b.2.1 b.2.2 s hinv
    obtain ⟨ih1, ih2, ih3⟩ := ih (processMiniBatchM opts b.1 b.2.1 b.2.2 s).1 hinv1
    refine ⟨ih1, ?_, ?_⟩
    · intro e he
      simp only [runEM] at he
      rw [List.mem_append] at he
      rcases he with he | he
      · exact (miniBatch_events_guard opts b.1 b.2.1 b.2.2 s e he).2
      · exact ih2 e he
    · intro hb
      simp only [runEM]
      have h1 : (processMiniBatchM opts b.1 b.2.1 b.2.2 s).2 = [] := by
        rcases List.eq_nil_or_concat (processMiniBatchM opts b.1 b.2.1 b.2.2 s).2 with h | h
        · exact h
        · obtain ⟨l2, e, he⟩ := h
          have hmem : e ∈ (processMiniBatchM opts b.1 b.2.1 b.2.2 s).2 := by
            rw [he, List.concat_eq_append]
            exact List.mem_append_right _ (List.mem_singleton_self e)
          have := (miniBatch_events_guard opts b.1 b.2.1 b.2.2 s e hmem).1
          rw [hb] at this
          cases this
      have h2 : (processMiniBatchM opts b.1 b.2.1 b.2.2 s).1.burnedIn = true := by
        unfold processMiniBatchM
        dsimp only
        rw [hb]
        simp
      rw [h1, ih3 h2]
      rfl

/-- Witness for C3 at a concrete input: the fresh state (no fragments
    assigned, not burned in) and one empty batch. -/
theorem C3_fld_burnin_witness :
    (runEM (EMOpts.mk false false (fun _ => 0)
        (LibFmt.mk ReadKind.single MateOrientation.noneOrient Strandedness.U) false)
      (EMState.mk [] 0 false) [(0, [], fun _ _ => 0)]).1.burnedIn =
      decide ((runEM (EMOpts.mk false false (fun _ => 0)
          (LibFmt.mk ReadKind.single MateOrientation.noneOrient Strandedness.U) false)
        (EMState.mk [] 0 false)
        [(0, [], fun _ _ => 0)]).1.numAssignedFragments ≥ numBurninFrags) ∧
    (∀ e ∈ (runEM (EMOpts.mk false false (fun _ => 0)
        (LibFmt.mk ReadKind.single MateOrientation.noneOrient Strandedness.U) false)
      (EMState.mk [] 0 false) [(0, [], fun _ _ => 0)]).2,
        0 < e.fragLength ∧ e.rnd < e.prob) ∧
    ((EMState.mk ([] : List EMTranscript) 0 false).burnedIn = true →
      (runEM (EMOpts.mk false false (fun _ => 0)
          (LibFmt.mk ReadKind.single MateOrientation.noneOrient Strandedness.U) false)
        (EMState.mk [] 0 false) [(0, [], fun _ _ => 0)]).2 = []) :=
  C3_fld_burnin
    (EMOpts.mk false false (fun _ => 0)
      (LibFmt.mk ReadKind.single MateOrientation.noneOrient Strandedness.U) false)
    (EMState.mk [] 0 false) [(0, [], fun _ _ => 0)] (by decide)

/-! ### Oversized alignment groups (claim C7) -/

/-- The per-read step of processReadsMEM after getHitsForFragment (lines
    1372-1376): a group with more than maxReadOccs alignments is cleared,
    and the read is counted as observed (numObservedFragments += 1)
    unconditionally. -/
def mapReadStep (g : List Aln) (maxReadOccs : Nat) : List Aln × Nat :=
  (if g.length > maxReadOccs then [] else g, 1)

/-- Claim C7: a read whose alignment group exceeds maxReadOccs alignments
    has its group cleared before the EM mini-batch, while still counting
    toward numObservedFragments; the cleared (empty) group is skipped by
    processMiniBatch — not assigned, no cluster update, no FLD update, and
    zero M-step mass contribution to every transcript. -/
theorem C7_max_read_occs_clear (ctx : EMCtx) (g : List Aln) (maxReadOccs : Nat)
    (draws : Nat → ℚ) (h : g.length > maxReadOccs) :
    (mapReadStep g maxReadOccs).1 = [] ∧
    (mapReadStep g maxReadOccs).2 = 1 ∧
    (processGroup ctx (mapReadStep g maxReadOccs).1 draws).assignedDelta = 0 ∧
    (processGroup ctx (mapReadStep g maxReadOccs).1 draws).clusterEvents = [] ∧
    (processGroup ctx (mapReadStep g maxReadOccs).1 draws).fldEvents = [] ∧
    ∀ tid, massContribution tid
      ((processGroup ctx (mapReadStep g maxReadOccs).1 draws).alns) = 0 := by
  have he : (mapReadStep g maxReadOccs).1 = [] := by
    unfold mapReadStep
    rw [if_pos h]
  rw [he]
  exact ⟨rfl, rfl, rfl, rfl, rfl, fun tid => rfl⟩

/-- Witness for C7 at a concrete input: a single-alignment group against
    maxReadOccs = 0. -/
theorem C7_max_read_occs_clear_witness :
    (mapReadStep [Aln.mk 0 (LibFmt.mk ReadKind.single MateOrientation.noneOrient
        Strandedness.U) 0 0 0] 0).1 = [] ∧
    (mapReadStep [Aln.mk 0 (LibFmt.mk ReadKind.single MateOrientation.noneOrient
        Strandedness.U) 0 0 0] 0).2 = 1 ∧
    (processGroup (EMCtx.mk [] false false (fun _ => 0)
        (LibFmt.mk ReadKind.single MateOrientation.noneOrient Strandedness.U) false false)
      (mapReadStep [Aln.mk 0 (LibFmt.mk ReadKind.single MateOrientation.noneOrient
        Strandedness.U) 0 0 0] 0).1 (fun _ => 0)).assignedDelta = 0 ∧
    (processGroup (EMCtx.mk [] false false (fun _ => 0)
        (LibFmt.mk ReadKind.single MateOrientation.noneOrient Strandedness.U) false false)
      (mapReadStep [Aln.mk 0 (LibFmt.mk ReadKind.single MateOrientation.noneOrient
        Strandedness.U) 0 0 0] 0).1 (fun _ => 0)).clusterEvents = [] ∧
    (processGroup (EMCtx.mk [] false false (fun _ => 0)
        (LibFmt.mk ReadKind.single MateOrientation.noneOrient Strandedness.U) false false)
      (mapReadStep [Aln.mk 0 (LibFmt.mk ReadKind.single MateOrientation.noneOrient
        Strandedness.U) 0 0 0] 0).1 (fun _ => 0)).fldEvents = [] ∧
    ∀ tid, massContribution tid
      ((processGroup (EMCtx.mk [] false false (fun _ => 0)
          (LibFmt.mk ReadKind.single MateOrientation.noneOrient Strandedness.U) false false)
        (mapReadStep [Aln.mk 0 (LibFmt.mk ReadKind.single MateOrientation.noneOrient
          Strandedness.U) 0 0 0] 0).1 (fun _ => 0)).alns) = 0 :=
  C7_max_read_occs_clear
    (EMCtx.mk [] false false (fun _ => 0)
      (LibFmt.mk ReadKind.single MateOrientation.noneOrient Strandedness.U) false false)
    [Aln.mk 0 (LibFmt.mk ReadKind.single MateOrientation.noneOrient Strandedness.U) 0 0 0]
    0 (fun _ => 0) (by decide)

end SalmonQ
